import Mathlib

set_option maxHeartbeats 1000000
set_option maxRecDepth 100000

/-!
Verification development for the inventory-tree program (`homework4.py`).

The program models a Network containing Computers (hosts); each Computer
holds a list of Addresses and a list of Components (CPU, Memory, Disk with
partitions; a Computer is itself a Component, so components may nest).
The tree is rendered as ASCII text, supports name lookup, fluent
`add...` mutators, and deep copies via `copy.deepcopy`.

The embedding below translates each class and method of the source.
Python's mutable output list `os` (to which `print_me` appends) is passed
explicitly and the updated list is returned; Python `int` is `Int`;
methods that mutate `self` and return a value are translated as functions
returning the updated object paired with the Python return value.
-/

/-- Class `Address` (source line 53): holds the endpoint string `addr`. -/
structure Address where
  address : String
  deriving DecidableEq

/-- Source `'\\-' if is_last else '+-'`, the branch glyph used by every
`print_me` implementation. -/
def branch (is_last : Bool) : String := if is_last then "\\-" else "+-"

/-- `Address.print_me` (source lines 58-59): appends the single line
`f"{prefix}{'+-'}{self.address}"`; `is_last` is ignored by the body. -/
def Address.print_me (a : Address) (os : List String) (p : String) (_is_last : Bool) :
    List String :=
  os ++ [p ++ "+-" ++ a.address]

/-- Class `Disk` (source line 131): storage type, capacity, and the
partition list of `(size, name)` pairs. -/
structure Disk where
  storage_type : Int
  size : Int
  partitions : List (Int × String)
  deriving DecidableEq

/-- `Disk.SSD = 0` (source line 134). -/
def Disk.SSD : Int := 0

/-- `Disk.MAGNETIC = 1` (source line 135). -/
def Disk.MAGNETIC : Int := 1

/-- The partition loop of `Disk.print_me` (source lines 154-156): for each
partition at index `i` append
`f"{prefix}  {part_symbol}[{i}]: {size} GiB, {name}"`, where `part_symbol`
is `'\\-'` exactly when `i == len(partitions) - 1` (`total` is the length
of the full partition list). -/
def diskPartLoop : List (Int × String) → List String → String → Nat → Nat → List String
  | [], os, _, _, _ => os
  | (size, name) :: rest, os, p, i, total =>
      diskPartLoop rest
        (os ++ [p ++ "  " ++ (if i = total - 1 then "\\-" else "+-") ++ "[" ++ toString i ++
          "]: " ++ toString size ++ " GiB, " ++ name])
        p (i + 1) total

/-- `Disk.print_me` (source lines 149-156): own line
`f"{prefix}{branch}{disk_type}, {self.size} GiB"` with
`disk_type = 'SSD' if storage_type == Disk.SSD else 'HDD'`, followed by the
partition loop. -/
def Disk.print_me (d : Disk) (os : List String) (p : String) (is_last : Bool) :
    List String :=
  diskPartLoop d.partitions
    (os ++ [p ++ branch is_last ++ (if d.storage_type = Disk.SSD then "SSD" else "HDD") ++
      ", " ++ toString d.size ++ " GiB"])
    p 0 d.partitions.length

mutual

/-- The `Component` class hierarchy (source lines 39, 64, 131, 165, 181):
`CPU`, `Memory` and `Disk` are `Component` subclasses, and `Computer`
itself derives from `Component` (through multiple inheritance), so a
component slot can hold a nested computer. -/
inductive Component where
  | cpu (cores mhz : Int)
  | memory (size : Int)
  | disk (d : Disk)
  | computer (c : Computer)

/-- Class `Computer` (source lines 64-70): an identifying `name`, the
`addresses` list (filled by `add_address`) and the inherited
`BasicCollection` list `items` (filled by `add_component`). -/
inductive Computer where
  | mk (name : String) (addresses : List Address) (items : List Component)

end

/-- Field accessor `Computer.name`. -/
def Computer.name : Computer → String
  | .mk n _ _ => n

/-- Field accessor `Computer.addresses`. -/
def Computer.addresses : Computer → List Address
  | .mk _ a _ => a

/-- Field accessor `Computer.items` (the `BasicCollection` storage). -/
def Computer.items : Computer → List Component
  | .mk _ _ i => i

/-- The `components` property (source lines 82-84): returns `self.items`. -/
def Computer.components (c : Computer) : List Component := c.items

/-- The address loop of `Computer.print_me` (source lines 92-93): each
address is printed with `is_last` set exactly for the final list index
(`i == len(self.addresses) - 1`). -/
def addrLoop : List Address → List String → String → List String
  | [], os, _ => os
  | [a], os, p => a.print_me os p true
  | a :: a2 :: rest, os, p => addrLoop (a2 :: rest) (a.print_me os p false) p

mutual

/-- Dispatch of the virtual `print_me` call over the `Component` variants:
`CPU.print_me` (source lines 173-175), `Memory.print_me` (source lines
187-189), `Disk.print_me` and `Computer.print_me`. -/
def Component.print_me : Component → List String → String → Bool → List String
  | .cpu cores mhz, os, p, is_last =>
      os ++ [p ++ branch is_last ++ "CPU, " ++ toString cores ++ " cores @ " ++
        toString mhz ++ "MHz"]
  | .memory size, os, p, is_last =>
      os ++ [p ++ branch is_last ++ "Memory, " ++ toString size ++ " MiB"]
  | .disk d, os, p, is_last => d.print_me os p is_last
  | .computer c, os, p, is_last => Computer.print_me c os p is_last

/-- `Computer.print_me` (source lines 87-97): own line
`f"{prefix}{branch}Host: {self.name}"`, then the address loop and the
component loop, both with the child prefix
`prefix + ("| " if not is_last else "  ")`. -/
def Computer.print_me : Computer → List String → String → Bool → List String
  | .mk name addrs items, os, p, is_last =>
      compLoop items
        (addrLoop addrs (os ++ [p ++ branch is_last ++ "Host: " ++ name])
          (p ++ (if is_last then "  " else "| ")))
        (p ++ (if is_last then "  " else "| "))

/-- The component loop of `Computer.print_me` (source lines 96-97): each
component is printed with `is_last` set exactly for the final list index
(`i == len(self.items) - 1`). -/
def compLoop : List Component → List String → String → List String
  | [], os, _ => os
  | [c], os, p => Component.print_me c os p true
  | c :: c2 :: rest, os, p => compLoop (c2 :: rest) (Component.print_me c os p false) p

end

/-- Class `Network` (source lines 102-106): a `name` and the `computers`
list. -/
structure Network where
  name : String
  computers : List Computer

/-- The host loop of `Network.print_me` (source lines 120-121): each
computer is printed with the prefix passed through unchanged and `is_last`
set exactly for the final list index. -/
def compuLoop : List Computer → List String → String → List String
  | [], os, _ => os
  | [c], os, p => c.print_me os p true
  | c :: c2 :: rest, os, p => compuLoop (c2 :: rest) (c.print_me os p false) p

/-- `Network.print_me` (source lines 118-121): appends
`f"Network: {self.name}"` (no branch glyph) and then the host loop;
`is_last` is ignored by the body. -/
def Network.print_me (n : Network) (os : List String) (p : String) (_is_last : Bool) :
    List String :=
  compuLoop n.computers (os ++ ["Network: " ++ n.name]) p

/-- `Network.__str__` (source lines 123-126): render into a fresh list with
the default arguments `prefix=""`, `is_last=False` and join the lines with
newline characters (no trailing newline). -/
def Network.str (n : Network) : String :=
  String.intercalate "\n" (Network.print_me n [] "" false)

/-- The fixed example tree of the round-trip rendering property. -/
def exampleNetwork : Network :=
  { name := "University NET"
    computers :=
      [ Computer.mk "node1.uni.edu" [⟨"192.168.1.1"⟩]
          [.cpu 4 2500, .memory 16000]
      , Computer.mk "node2.uni.edu" [⟨"10.0.0.1"⟩]
          [.cpu 8 3200, .disk ⟨Disk.MAGNETIC, 2000, [(500, "system"), (1500, "storage")]⟩] ] }

/-- `BasicCollection.find` (source lines 28-32): linear scan of `items`;
returns the first item that is a `Computer` (the `isinstance` check) whose
`name` equals the argument, else `None`. -/
def BasicCollection.find : List Component → String → Option Computer
  | [], _ => none
  | .computer c :: rest, name =>
      if c.name = name then some c else BasicCollection.find rest name
  | _ :: rest, name => BasicCollection.find rest name

/-- The loop body of `Network.find_computer` (source lines 113-116):
linear scan by exact name equality, `None` when exhausted. -/
def findCompuLoop : List Computer → String → Option Computer
  | [], _ => none
  | c :: rest, name => if c.name = name then some c else findCompuLoop rest name

/-- `Network.find_computer` (source lines 112-116): linear scan of
`computers` by exact name equality; returns `None` when no host matches. -/
def Network.find_computer (n : Network) (name : String) : Option Computer :=
  findCompuLoop n.computers name

/-!
Mutators.  Each Python `add...` method mutates `self` and then returns a
value (either `self` or, when the body has no `return` statement, `None`).
They are translated as functions producing the updated object paired with
the Python return value (`some` of the returned object, or `none` for
Python's `None`).
-/

/-- `BasicCollection.add` (source lines 25-26), inherited by `Computer`:
`self.items.append(elem)`; the body has no `return` statement, so the call
evaluates to `None`. -/
def Computer.add (c : Computer) (elem : Component) : Computer × Option Computer :=
  (.mk c.name c.addresses (c.items ++ [elem]), none)

/-- `Computer.add_address` (source lines 72-75): constructs
`Address(addr)`, appends it to `self.addresses` only, and returns `self`. -/
def Computer.add_address (c : Computer) (addr : String) : Computer × Option Computer :=
  let c' : Computer := .mk c.name (c.addresses ++ [⟨addr⟩]) c.items
  (c', some c')

/-- `Computer.add_component` (source lines 77-79): calls `self.add(comp)`
(discarding its `None` result) and returns `self`. -/
def Computer.add_component (c : Computer) (comp : Component) : Computer × Option Computer :=
  let c' := (c.add comp).1
  (c', some c')

/-- `Network.add_computer` (source lines 108-110): appends to
`self.computers` and returns `self`. -/
def Network.add_computer (n : Network) (comp : Computer) : Network × Option Network :=
  let n' : Network := ⟨n.name, n.computers ++ [comp]⟩
  (n', some n')

/-- `Disk.add_partition` (source lines 144-147): appends `(size, name)` to
`self.partitions` and returns `self`. -/
def Disk.add_partition (d : Disk) (size : Int) (name : String) : Disk × Option Disk :=
  let d' : Disk := ⟨d.storage_type, d.size, d.partitions ++ [(size, name)]⟩
  (d', some d')

/-- C1: for the fixed example tree of spec section 8 (Network
"University NET"; host node1.uni.edu with address 192.168.1.1, CPU(4,2500)
and Memory(16000); host node2.uni.edu with address 10.0.0.1, CPU(8,3200)
and an HDD disk of 2000 GiB with partitions (500, system) and
(1500, storage)), the string conversion equals, byte for byte, the eleven
expected lines joined by newline characters with no trailing newline. -/
theorem example_network_renders_exactly : Network.str exampleNetwork =
    "Network: University NET\n+-Host: node1.uni.edu\n| +-192.168.1.1\n| +-CPU, 4 cores @ 2500MHz\n| \\-Memory, 16000 MiB\n\\-Host: node2.uni.edu\n  +-10.0.0.1\n  +-CPU, 8 cores @ 3200MHz\n  \\-HDD, 2000 GiB\n    +-[0]: 500 GiB, system\n    \\-[1]: 1500 GiB, storage" := by
  rfl

/-- The partition loop unrolled: starting at index `i` it appends one line
per partition, indexed consecutively, with the `\-` glyph exactly on the
index `total - 1`. -/
theorem diskPartLoop_eq (ps : List (Int × String)) (os : List String) (p : String)
    (i total : Nat) :
    diskPartLoop ps os p i total =
      os ++ (ps.enumFrom i).map (fun q =>
        p ++ "  " ++ (if q.1 = total - 1 then "\\-" else "+-") ++ "[" ++ toString q.1 ++
          "]: " ++ toString q.2.1 ++ " GiB, " ++ q.2.2) := by
  induction ps generalizing os i with
  | nil => simp [diskPartLoop]
  | cons hd tl ih =>
    obtain ⟨sz, nm⟩ := hd
    simp [diskPartLoop, ih, List.enumFrom]

/-- C5: `Disk.print_me` emits its own line (prefix, branch glyph, the
token `SSD` exactly when the storage type equals the `Disk.SSD` enum value
and `HDD` otherwise, then the capacity), followed by one line per
partition in insertion order with 0-based indices `[0], [1], ...`, each
indented two literal spaces past the disk's prefix, where exactly the last
partition's line carries the `\-` glyph and every other partition line
carries `+-`. -/
theorem disk_renders_partitions_indexed (d : Disk) (os : List String) (p : String)
    (b : Bool) :
    Disk.print_me d os p b =
      os ++ ((p ++ branch b ++ (if d.storage_type = Disk.SSD then "SSD" else "HDD") ++
          ", " ++ toString d.size ++ " GiB") ::
        d.partitions.enum.map (fun q =>
          p ++ "  " ++ (if q.1 = d.partitions.length - 1 then "\\-" else "+-") ++
            "[" ++ toString q.1 ++ "]: " ++ toString q.2.1 ++ " GiB, " ++ q.2.2)) := by
  simp [Disk.print_me, diskPartLoop_eq, List.enum]

/-- The `find_computer` loop is the first-match linear scan. -/
theorem findCompuLoop_eq_find? (l : List Computer) (nm : String) :
    findCompuLoop l nm = l.find? (fun c => c.name == nm) := by
  induction l with
  | nil => rfl
  | cons c rest ih =>
    by_cases h : c.name = nm
    · simp [findCompuLoop, List.find?, h, ih]
    · have hb : (c.name == nm) = false := beq_eq_false_iff_ne.mpr h
      simp [findCompuLoop, List.find?, h, hb, ih]

/-- The `BasicCollection.find` loop is the first-match linear scan over
the children that are computers. -/
theorem find_eq_findSome? (items : List Component) (nm : String) :
    BasicCollection.find items nm =
      items.findSome? (fun it => match it with
        | .computer c => if c.name = nm then some c else none
        | _ => none) := by
  induction items with
  | nil => rfl
  | cons it rest ih =>
    cases it with
    | computer c =>
      by_cases h : c.name = nm <;> simp [BasicCollection.find, List.findSome?, h, ih]
    | cpu cores mhz => simp [BasicCollection.find, List.findSome?, ih]
    | memory sz => simp [BasicCollection.find, List.findSome?, ih]
    | disk d => simp [BasicCollection.find, List.findSome?, ih]

/-- C6: `find_computer` is a linear scan of the host sequence in insertion
order by exact name equality, returning the first match (so the first
wins on duplicates) and `none` (never an exception: the function is total)
when no host matches; likewise `BasicCollection.find` returns the first
computer-typed child in insertion order whose name equals the argument,
and `none` otherwise. -/
theorem find_is_first_match_linear_scan (n : Network) (items : List Component)
    (nm : String) :
    Network.find_computer n nm = n.computers.find? (fun c => c.name == nm) ∧
    (Network.find_computer n nm = none ↔ ∀ c ∈ n.computers, c.name ≠ nm) ∧
    BasicCollection.find items nm =
      items.findSome? (fun it => match it with
        | .computer c => if c.name = nm then some c else none
        | _ => none) := by
  refine ⟨findCompuLoop_eq_find? n.computers nm, ?_, find_eq_findSome? items nm⟩
  rw [Network.find_computer, findCompuLoop_eq_find?, List.find?_eq_none]
  simp

/-- C7 counterexample: the collection `add` inherited by `Computer`
appends, but its method body has no `return` statement, so the call
evaluates to Python `None` rather than the owning node: at this concrete
input the returned value is `none` and differs from `some` of the updated
owner. -/
theorem collection_add_returns_none :
    (Computer.add (.mk "pc" [] []) (.cpu 4 2500)).2 = none ∧
    (Computer.add (.mk "pc" [] []) (.cpu 4 2500)).2 ≠
      some (Computer.add (.mk "pc" [] []) (.cpu 4 2500)).1 := by
  exact ⟨rfl, by simp [Computer.add]⟩

/-- C7 (amended): every add-style mutator appends its argument to the end
of the corresponding ordered sequence, increasing its length by exactly 1;
`add_address` (which constructs an Address from the endpoint),
`add_component`, `add_computer` and `add_partition` return the owning node
to allow fluent chaining, while the collection `add` itself appends but
returns `None`. -/
theorem add_mutators_append_and_chain (c : Computer) (comp : Component) (e : String)
    (n : Network) (h : Computer) (d : Disk) (sz : Int) (lbl : String) :
    ((c.add comp).1.items = c.items ++ [comp] ∧
      (c.add comp).1.items.length = c.items.length + 1 ∧
      (c.add comp).1.name = c.name ∧ (c.add comp).1.addresses = c.addresses ∧
      (c.add comp).2 = none) ∧
    ((c.add_address e).1.addresses = c.addresses ++ [⟨e⟩] ∧
      (c.add_address e).1.addresses.length = c.addresses.length + 1 ∧
      (c.add_address e).1.name = c.name ∧ (c.add_address e).1.items = c.items ∧
      (c.add_address e).2 = some (c.add_address e).1) ∧
    ((c.add_component comp).1.items = c.items ++ [comp] ∧
      (c.add_component comp).1.items.length = c.items.length + 1 ∧
      (c.add_component comp).2 = some (c.add_component comp).1) ∧
    ((n.add_computer h).1.computers = n.computers ++ [h] ∧
      (n.add_computer h).1.computers.length = n.computers.length + 1 ∧
      (n.add_computer h).2 = some (n.add_computer h).1) ∧
    ((d.add_partition sz lbl).1.partitions = d.partitions ++ [(sz, lbl)] ∧
      (d.add_partition sz lbl).1.partitions.length = d.partitions.length + 1 ∧
      (d.add_partition sz lbl).2 = some (d.add_partition sz lbl).1) := by
  simp [Computer.add, Computer.add_address, Computer.add_component,
    Network.add_computer, Disk.add_partition, Computer.items, Computer.name,
    Computer.addresses]

/-- C4: `Address.print_me` appends exactly the single line
`prefix ++ "+-" ++ endpoint`, for every endpoint, prefix and both values of
the `is_last` flag; in particular the non-last glyph `+-` is used even when
the flag says the address is the last child, so an address never renders
with the `\-` glyph. -/
theorem address_renders_nonlast_glyph (a : Address) (os : List String) (p : String)
    (b : Bool) :
    Address.print_me a os p b = os ++ [p ++ "+-" ++ a.address] ∧
    Address.print_me a os p true = Address.print_me a os p false := by
  exact ⟨rfl, rfl⟩

/-- The address loop appends one `+-` line per address, in order,
independently of the per-address `is_last` flags. -/
theorem addrLoop_eq_map (as : List Address) (os : List String) (p : String) :
    addrLoop as os p = os ++ as.map (fun a => p ++ "+-" ++ a.address) := by
  induction as generalizing os with
  | nil => simp [addrLoop]
  | cons a tl ih =>
    cases tl with
    | nil => simp [addrLoop, Address.print_me]
    | cons a2 tl2 =>
      rw [addrLoop, ih, Address.print_me]
      simp

/-- `Disk.print_me` only appends to the output list. -/
theorem disk_print_appends (d : Disk) (os : List String) (p : String) (b : Bool) :
    Disk.print_me d os p b = os ++ Disk.print_me d [] p b := by
  rw [Disk.print_me, Disk.print_me, diskPartLoop_eq, diskPartLoop_eq]
  simp

mutual

/-- `Component.print_me` only appends to the output list. -/
theorem component_print_appends (c : Component) (os : List String) (p : String)
    (b : Bool) : Component.print_me c os p b = os ++ Component.print_me c [] p b := by
  cases c with
  | cpu cores mhz => simp [Component.print_me]
  | memory sz => simp [Component.print_me]
  | disk d => rw [Component.print_me, Component.print_me]; exact disk_print_appends d os p b
  | computer comp =>
      rw [Component.print_me, Component.print_me]
      exact computer_print_appends comp os p b

/-- `Computer.print_me` only appends to the output list. -/
theorem computer_print_appends (c : Computer) (os : List String) (p : String)
    (b : Bool) : Computer.print_me c os p b = os ++ Computer.print_me c [] p b := by
  cases c with
  | mk nm addrs items =>
      rw [Computer.print_me, Computer.print_me,
        compLoop_append items
          (addrLoop addrs (os ++ [p ++ branch b ++ "Host: " ++ nm])
            (p ++ (if b then "  " else "| "))) (p ++ (if b then "  " else "| ")),
        compLoop_append items
          (addrLoop addrs ([] ++ [p ++ branch b ++ "Host: " ++ nm])
            (p ++ (if b then "  " else "| "))) (p ++ (if b then "  " else "| ")),
        addrLoop_eq_map, addrLoop_eq_map]
      simp

/-- The component loop only appends to the output list. -/
theorem compLoop_append (cs : List Component) (os : List String) (p : String) :
    compLoop cs os p = os ++ compLoop cs [] p := by
  cases cs with
  | nil => simp [compLoop]
  | cons c tl =>
    cases tl with
    | nil =>
        rw [compLoop, compLoop]
        exact component_print_appends c os p true
    | cons c2 tl2 =>
        rw [compLoop, compLoop,
          compLoop_append (c2 :: tl2) (Component.print_me c os p false) p,
          compLoop_append (c2 :: tl2) (Component.print_me c [] p false) p,
          component_print_appends c os p false]
        simp

end

/-- The host loop only appends to the output list. -/
theorem compuLoop_append (cs : List Computer) (os : List String) (p : String) :
    compuLoop cs os p = os ++ compuLoop cs [] p := by
  induction cs generalizing os with
  | nil => simp [compuLoop]
  | cons c tl ih =>
    cases tl with
    | nil =>
        rw [compuLoop, compuLoop]
        exact computer_print_appends c os p true
    | cons c2 tl2 =>
        rw [compuLoop, compuLoop, ih (Computer.print_me c os p false),
          ih (Computer.print_me c [] p false), computer_print_appends c os p false]
        simp

/-- C9: rendering is pure and append-only: in the embedding the tree is
passed immutably (mirroring that the source `print_me` methods never
assign to any node attribute, only append to the output list `os`), the
output list is strictly appended to, and consequently two successive
string conversions of an unmodified tree yield identical output. -/
theorem render_twice_identical (n : Network) (os : List String) (p : String) (b : Bool) :
    Network.print_me n os p b = os ++ Network.print_me n [] p b ∧
    Network.str n = Network.str n := by
  refine ⟨?_, rfl⟩
  rw [Network.print_me, Network.print_me,
    compuLoop_append n.computers (os ++ ["Network: " ++ n.name]) p,
    compuLoop_append n.computers ([] ++ ["Network: " ++ n.name]) p]
  simp

/-- Modelled from the spec's child-rendering contract (section 4.3): a
Computer's rendered children are its addresses followed by its components
in one combined sibling ordering, each child rendered by its own
`print_me` with the extended prefix. -/
def specChild : Address ⊕ Component → List String → String → Bool → List String
  | .inl a, os, p, b => a.print_me os p b
  | .inr comp, os, p, b => Component.print_me comp os p b

/-- Modelled from the spec: render a combined child list where `is_last`
is true exactly for the final child of the combined ordering. -/
def specChildren : List (Address ⊕ Component) → List String → String → List String
  | [], os, _ => os
  | [x], os, p => specChild x os p true
  | x :: y :: rest, os, p => specChildren (y :: rest) (specChild x os p false) p

/-- Modelled from the spec (section 4.3): a Computer renders its own
`Host:` line with the branch glyph, then every address followed by every
component as children of the combined ordering, each with the prefix
extended by `"| "` when the computer is not last and `"  "` when it is. -/
def Computer.render_spec : Computer → List String → String → Bool → List String
  | .mk name addrs items, os, p, is_last =>
      specChildren (addrs.map .inl ++ items.map .inr)
        (os ++ [p ++ branch is_last ++ "Host: " ++ name])
        (p ++ (if is_last then "  " else "| "))

/-- A component-only combined child list renders exactly as the source's
component loop. -/
theorem specChildren_inr (items : List Component) (os : List String) (p : String) :
    specChildren (items.map .inr) os p = compLoop items os p := by
  induction items generalizing os with
  | nil => rfl
  | cons c tl ih =>
    cases tl with
    | nil => rfl
    | cons c2 tl2 =>
        rw [List.map_cons, List.map_cons, specChildren, compLoop, ← List.map_cons, ih]
        rfl

/-- The combined addresses-then-components child rendering of the spec
coincides with the source's two per-list loops. -/
theorem specChildren_combined (addrs : List Address) (items : List Component)
    (os : List String) (p : String) :
    specChildren (addrs.map .inl ++ items.map .inr) os p =
      compLoop items (addrLoop addrs os p) p := by
  induction addrs generalizing os with
  | nil => simp [addrLoop, specChildren_inr]
  | cons a tl ih =>
    cases tl with
    | nil =>
      cases items with
      | nil => rfl
      | cons c tl2 =>
          rw [show specChildren (List.map Sum.inl [a] ++ List.map Sum.inr (c :: tl2))
              os p =
            specChildren (List.map Sum.inr (c :: tl2))
              (Address.print_me a os p false) p from rfl, specChildren_inr]
          rfl
    | cons a2 tl2 =>
        rw [show specChildren
              (List.map Sum.inl (a :: a2 :: tl2) ++ List.map Sum.inr items) os p =
            specChildren (List.map Sum.inl (a2 :: tl2) ++ List.map Sum.inr items)
              (Address.print_me a os p false) p from rfl, ih]
        rfl

/-- C3: for every Computer, prefix and `is_last` flag, its rendering is
exactly the rendering described by the spec: its own `Host:` line with
the branch glyph, then every address in insertion order followed by every
component in insertion order as children of one combined sibling ordering
(so the last component, if any component exists, is the overall last
child, and otherwise the last address is), each child rendered with the
prefix extended by `"| "` when the computer is not last and `"  "` (two
spaces) when it is. -/
theorem computer_renders_combined_children (c : Computer) (os : List String)
    (p : String) (b : Bool) :
    Computer.print_me c os p b = Computer.render_spec c os p b := by
  cases c with
  | mk nm addrs items =>
      rw [Computer.print_me, Computer.render_spec, specChildren_combined]

/-- C8: a Network with zero hosts renders as exactly the single line
`"Network: " ++ name` with no branch glyph (both as the rendered line list
and as the joined string), and a Computer with zero addresses and zero
components appends exactly its own `Host:` line with the appropriate
branch glyph and no further lines. -/
theorem empty_containers_render (name : String) (os : List String) (p : String)
    (b : Bool) :
    Network.print_me ⟨name, []⟩ os p b = os ++ ["Network: " ++ name] ∧
    Network.str ⟨name, []⟩ = "Network: " ++ name ∧
    Computer.print_me (.mk name [] []) os p b =
      os ++ [p ++ branch b ++ "Host: " ++ name] := by
  refine ⟨rfl, rfl, ?_⟩
  simp [Computer.print_me, addrLoop, compLoop]

/-!
Heap model for `clone` (`copy.deepcopy`, source lines 50-51, 61-62,
99-100, 128-129, 158-159, 177-178, 191-192).

Python objects live on a heap and attributes holding other objects are
references; `copy.deepcopy` recursively creates fresh objects for the
whole reachable object graph, sharing nothing mutable with the original.
The model: a `Store` maps addresses (`Nat`) to object states (`HNode`);
in-place mutation of the object at an address is prepending a new binding
for that address; `deepcopy` reads the (tree-shaped, alias-free, exactly
what the constructors build) object graph back into a value and allocates
a fresh copy of it at addresses at or above the allocation counter.
-/

/-- A heap-resident object: scalar attributes held by value, owned child
objects referred to by heap address.  A disk's partition list of immutable
`(int, str)` pairs is owned by its disk object, so it is stored inline. -/
inductive HNode where
  | hcpu (cores mhz : Int)
  | hmemory (size : Int)
  | hdisk (storage_type size : Int) (partitions : List (Int × String))
  | haddress (address : String)
  | hcomputer (name : String) (addresses : List Nat) (items : List Nat)
  | hnetwork (name : String) (computers : List Nat)
  deriving DecidableEq

/-- The heap addresses an object state refers to. -/
def HNode.childRefs : HNode → List Nat
  | .hcomputer _ addrs items => addrs ++ items
  | .hnetwork _ cs => cs
  | _ => []

/-- A heap: an association list from addresses to object states; the
first binding for an address wins, so prepending a binding models an
in-place update of that object. -/
abbrev Store := List (Nat × HNode)

/-- Heap lookup: first binding wins. -/
def hlookup : Store → Nat → Option HNode
  | [], _ => none
  | (b, node) :: rest, a => if b = a then some node else hlookup rest a

/-- Every address bound in the store is below `c` and refers only below
`c`: the shape of a store built by allocating below counter `c`. -/
def okStore (s : Store) (c : Nat) : Prop :=
  ∀ b node, hlookup s b = some node → b < c ∧ ∀ x ∈ node.childRefs, x < c

/-- Allocate one `Address` object at the next free address. -/
def allocAddress (a : Address) (ctr : Nat) (s : Store) : Store × Nat × Nat :=
  ((ctr, .haddress a.address) :: s, ctr, ctr + 1)

/-- Allocate a list of `Address` objects, left to right. -/
def allocAddresses : List Address → Nat → Store → Store × List Nat × Nat
  | [], ctr, s => (s, [], ctr)
  | a :: rest, ctr, s =>
      let q1 := allocAddress a ctr s
      let q2 := allocAddresses rest q1.2.2 q1.1
      (q2.1, q1.2.1 :: q2.2.1, q2.2.2)

mutual

/-- Allocate one `Component` object (recursively allocating an embedded
computer's children first). -/
def allocComponent : Component → Nat → Store → Store × Nat × Nat
  | .cpu cores mhz, ctr, s => ((ctr, .hcpu cores mhz) :: s, ctr, ctr + 1)
  | .memory sz, ctr, s => ((ctr, .hmemory sz) :: s, ctr, ctr + 1)
  | .disk d, ctr, s =>
      ((ctr, .hdisk d.storage_type d.size d.partitions) :: s, ctr, ctr + 1)
  | .computer c, ctr, s => allocComputer c ctr s

/-- Allocate one `Computer` object: its addresses, then its components,
then the computer object referring to them. -/
def allocComputer : Computer → Nat → Store → Store × Nat × Nat
  | .mk nm addrs items, ctr, s =>
      let q1 := allocAddresses addrs ctr s
      let q2 := allocComponents items q1.2.2 q1.1
      ((q2.2.2, .hcomputer nm q1.2.1 q2.2.1) :: q2.1, q2.2.2, q2.2.2 + 1)

/-- Allocate a list of `Component` objects, left to right. -/
def allocComponents : List Component → Nat → Store → Store × List Nat × Nat
  | [], ctr, s => (s, [], ctr)
  | c :: rest, ctr, s =>
      let q1 := allocComponent c ctr s
      let q2 := allocComponents rest q1.2.2 q1.1
      (q2.1, q1.2.1 :: q2.2.1, q2.2.2)

end

/-- Allocate a list of `Computer` objects, left to right. -/
def allocComputers : List Computer → Nat → Store → Store × List Nat × Nat
  | [], ctr, s => (s, [], ctr)
  | c :: rest, ctr, s =>
      let q1 := allocComputer c ctr s
      let q2 := allocComputers rest q1.2.2 q1.1
      (q2.1, q1.2.1 :: q2.2.1, q2.2.2)

/-- Allocate one `Network` object: its computers, then the network object
referring to them. -/
def allocNetwork (n : Network) (ctr : Nat) (s : Store) : Store × Nat × Nat :=
  let q1 := allocComputers n.computers ctr s
  ((q1.2.2, .hnetwork n.name q1.2.1) :: q1.1, q1.2.2, q1.2.2 + 1)

/-- Read one `Address` object back from the heap. -/
def interpAddress (s : Store) (r : Nat) : Option Address :=
  match hlookup s r with
  | some (.haddress a) => some ⟨a⟩
  | _ => none

/-- Read a list of `Address` objects back from the heap. -/
def interpAddresses (s : Store) (rs : List Nat) : Option (List Address) :=
  rs.mapM (interpAddress s)

/-- Read one `Component` object graph back from the heap; `fuel` bounds
the depth (any fuel at least the tree's depth gives the same result). -/
def interpComponent : Nat → Store → Nat → Option Component
  | 0, _, _ => none
  | fuel + 1, s, r =>
    match hlookup s r with
    | some (.hcpu cores mhz) => some (.cpu cores mhz)
    | some (.hmemory sz) => some (.memory sz)
    | some (.hdisk t sz ps) => some (.disk ⟨t, sz, ps⟩)
    | some (.hcomputer nm ars irs) =>
        match interpAddresses s ars, irs.mapM (interpComponent fuel s) with
        | some as, some is => some (.computer (.mk nm as is))
        | _, _ => none
    | _ => none

/-- Read one `Computer` object graph back from the heap. -/
def interpComputer (fuel : Nat) (s : Store) (r : Nat) : Option Computer :=
  match interpComponent fuel s r with
  | some (.computer c) => some c
  | _ => none

/-- Read a list of `Computer` object graphs back from the heap. -/
def interpComputers (fuel : Nat) (s : Store) (rs : List Nat) : Option (List Computer) :=
  rs.mapM (interpComputer fuel s)

/-- Read one `Network` object graph back from the heap. -/
def interpNetwork : Nat → Store → Nat → Option Network
  | 0, _, _ => none
  | fuel + 1, s, r =>
    match hlookup s r with
    | some (.hnetwork nm rs) => (interpComputers fuel s rs).map (Network.mk nm)
    | _ => none

/-- A node of any of the six kinds (Network, Computer, CPU, Memory, Disk,
Address); `Component` covers the middle four. -/
inductive Node where
  | comp (c : Component)
  | addr (a : Address)
  | net (n : Network)

/-- Read one node of any kind back from the heap, dispatching on the kind
of the object found at the address. -/
def interpNode (fuel : Nat) (s : Store) (r : Nat) : Option Node :=
  match hlookup s r with
  | some (.haddress _) => (interpAddress s r).map .addr
  | some (.hnetwork _ _) => (interpNetwork fuel s r).map .net
  | some _ => (interpComponent fuel s r).map .comp
  | none => none

/-- Allocate one node of any kind. -/
def allocNode : Node → Nat → Store → Store × Nat × Nat
  | .comp c, ctr, s => allocComponent c ctr s
  | .addr a, ctr, s => allocAddress a ctr s
  | .net n, ctr, s => allocNetwork n ctr s

mutual

/-- Depth of a component's object graph (enough read-back fuel). -/
def Component.depth : Component → Nat
  | .cpu _ _ => 1
  | .memory _ => 1
  | .disk _ => 1
  | .computer c => Computer.depth c

/-- Depth of a computer's object graph. -/
def Computer.depth : Computer → Nat
  | .mk _ _ items => depthComponents items + 1

/-- Depth of a component list's object graphs. -/
def depthComponents : List Component → Nat
  | [] => 0
  | c :: rest => max (Component.depth c) (depthComponents rest)

end

/-- Depth of a computer list's object graphs. -/
def depthComputers : List Computer → Nat
  | [] => 0
  | c :: rest => max (Computer.depth c) (depthComputers rest)

/-- Depth of a network's object graph. -/
def Network.depth (n : Network) : Nat := depthComputers n.computers + 1

/-- Depth of a node's object graph. -/
def Node.depth : Node → Nat
  | .comp c => c.depth
  | .addr _ => 1
  | .net n => n.depth

/-- `copy.deepcopy` of a node of any kind, modelled on the heap: read the
object graph reachable from `r` back into a value and allocate a fresh
copy at addresses `≥ ctr`; the result is the extended store, the copy's
root address, and the next free address. -/
def deepcopyNode (fuel : Nat) (s : Store) (r ctr : Nat) :
    Option (Store × Nat × Nat) :=
  (interpNode fuel s r).map (fun t => allocNode t ctr s)

/-- `copy.deepcopy` of a network, modelled on the heap. -/
def deepcopyNetwork (fuel : Nat) (s : Store) (r ctr : Nat) :
    Option (Store × Nat × Nat) :=
  (interpNetwork fuel s r).map (fun m => allocNetwork m ctr s)

/-- `Network.clone` (source lines 128-129), i.e. `copy.deepcopy(self)`,
observed through the public value level: allocate the network on an empty
heap, deep-copy it, and read the copy back. -/
def Network.clone (n : Network) : Option Network :=
  let q0 := allocNetwork n 0 []
  (deepcopyNetwork (Network.depth n) q0.1 q0.2.1 q0.2.2).bind
    (fun q => interpNetwork (Network.depth n) q.1 q.2.1)

/-- Prepending bindings whose addresses all differ from `b` does not
change the lookup at `b`. -/
theorem hlookup_prepend_ne (us : List (Nat × HNode)) (s : Store) (b : Nat)
    (h : ∀ q ∈ us, q.1 ≠ b) : hlookup (us ++ s) b = hlookup s b := by
  induction us with
  | nil => rfl
  | cons q rest ih =>
    obtain ⟨a, node⟩ := q
    have ha : a ≠ b := h (a, node) (by simp)
    simp only [List.cons_append, hlookup, if_neg ha]
    exact ih (fun q hq => h q (by simp [hq]))

/-- A region-closure extension step used after each allocation. -/
theorem okStore_step (s s' : Store) (ctr c' : Nat) (hok : okStore s ctr)
    (hle : ctr ≤ c')
    (hreg : ∀ b node, hlookup s' b = some node → hlookup s b = some node ∨
      (ctr ≤ b ∧ b < c' ∧ ∀ x ∈ node.childRefs, ctr ≤ x ∧ x < c')) :
    okStore s' c' := by
  intro b node h
  rcases hreg b node h with hold | ⟨_, hb, hx⟩
  · obtain ⟨h1, h2⟩ := hok b node hold
    exact ⟨h1.trans_le hle, fun x hx2 => (h2 x hx2).trans_le hle⟩
  · exact ⟨hb, fun x hx2 => (hx x hx2).2⟩

/-- `mapM` over `Option` only depends on the function's values on the
list. -/
theorem mapM_congr_option {α β : Type} {f g : α → Option β} (l : List α)
    (h : ∀ x ∈ l, f x = g x) : l.mapM f = l.mapM g := by
  induction l with
  | nil => rfl
  | cons a tl ih =>
    rw [List.mapM_cons, List.mapM_cons, h a (by simp),
      ih (fun x hx => h x (by simp [hx]))]

/-- Reading back an address only depends on the binding at its address. -/
theorem interpAddress_frame (s s' : Store) (r : Nat)
    (h : hlookup s' r = hlookup s r) : interpAddress s' r = interpAddress s r := by
  rw [interpAddress, interpAddress, h]

/-- Reading back an address list only depends on the bindings at its
addresses. -/
theorem interpAddresses_frame (s s' : Store) (rs : List Nat)
    (h : ∀ x ∈ rs, hlookup s' x = hlookup s x) :
    interpAddresses s' rs = interpAddresses s rs :=
  mapM_congr_option rs (fun x hx => interpAddress_frame s s' x (h x hx))

/-- Component read-back only depends on a store region `P` that agrees
between the two stores, is closed under child references, and contains
the root. -/
theorem interpComponent_frame (P : Nat → Prop) (s s' : Store)
    (hag : ∀ b, P b → hlookup s' b = hlookup s b)
    (hcl : ∀ b node, P b → hlookup s b = some node → ∀ x ∈ node.childRefs, P x) :
    ∀ fuel r, P r → interpComponent fuel s' r = interpComponent fuel s r := by
  intro fuel
  induction fuel with
  | zero => intro r _; rfl
  | succ f ih =>
    intro r hr
    rw [interpComponent, interpComponent, hag r hr]
    cases hlk : hlookup s r with
    | none => rfl
    | some node =>
      cases node with
      | hcpu cores mhz => rfl
      | hmemory sz => rfl
      | hdisk t sz ps => rfl
      | haddress a => rfl
      | hnetwork nm rs => rfl
      | hcomputer nm ars irs =>
        have hchild := hcl r _ hr hlk
        have ha : interpAddresses s' ars = interpAddresses s ars :=
          interpAddresses_frame s s' ars (fun x hx =>
            hag x (hchild x (by simp [HNode.childRefs]; exact Or.inl hx)))
        have hi : irs.mapM (interpComponent f s') = irs.mapM (interpComponent f s) :=
          mapM_congr_option irs (fun x hx =>
            ih x (hchild x (by simp [HNode.childRefs]; exact Or.inr hx)))
        simp only [ha, hi]

/-- Computer read-back only depends on a closed store region. -/
theorem interpComputer_frame (P : Nat → Prop) (s s' : Store)
    (hag : ∀ b, P b → hlookup s' b = hlookup s b)
    (hcl : ∀ b node, P b → hlookup s b = some node → ∀ x ∈ node.childRefs, P x)
    (fuel r : Nat) (hr : P r) : interpComputer fuel s' r = interpComputer fuel s r := by
  rw [interpComputer, interpComputer, interpComponent_frame P s s' hag hcl fuel r hr]

/-- Network read-back only depends on a closed store region. -/
theorem interpNetwork_frame (P : Nat → Prop) (s s' : Store)
    (hag : ∀ b, P b → hlookup s' b = hlookup s b)
    (hcl : ∀ b node, P b → hlookup s b = some node → ∀ x ∈ node.childRefs, P x)
    (fuel r : Nat) (hr : P r) : interpNetwork fuel s' r = interpNetwork fuel s r := by
  cases fuel with
  | zero => rfl
  | succ f =>
    rw [interpNetwork, interpNetwork, hag r hr]
    cases hlk : hlookup s r with
    | none => rfl
    | some node =>
      cases node with
      | hcpu cores mhz => rfl
      | hmemory sz => rfl
      | hdisk t sz ps => rfl
      | haddress a => rfl
      | hcomputer nm ars irs => rfl
      | hnetwork nm rs =>
        have hcs : interpComputers f s' rs = interpComputers f s rs :=
          mapM_congr_option rs (fun x hx =>
            interpComputer_frame P s s' hag hcl f x
              (hcl r _ hr hlk x (by simp [HNode.childRefs]; exact hx)))
        show Option.map (Network.mk nm) (interpComputers f s' rs) =
          Option.map (Network.mk nm) (interpComputers f s rs)
        rw [hcs]

/-- What allocating one node guarantees: the counter grows, the root is
fresh, bindings below the old counter are untouched, and every binding is
either old or lies in the fresh region with child references inside it. -/
structure AllocOut (s : Store) (ctr : Nat) (out : Store × Nat × Nat) : Prop where
  le_ctr : ctr ≤ out.2.2
  ref_ge : ctr ≤ out.2.1
  ref_lt : out.2.1 < out.2.2
  lo : ∀ b, b < ctr → hlookup out.1 b = hlookup s b
  region : ∀ b node, hlookup out.1 b = some node → hlookup s b = some node ∨
    (ctr ≤ b ∧ b < out.2.2 ∧ ∀ x ∈ node.childRefs, ctr ≤ x ∧ x < out.2.2)

/-- `AllocOut` for an allocation returning a list of root addresses. -/
structure AllocOutL (s : Store) (ctr : Nat) (out : Store × List Nat × Nat) : Prop where
  le_ctr : ctr ≤ out.2.2
  refs : ∀ x ∈ out.2.1, ctr ≤ x ∧ x < out.2.2
  lo : ∀ b, b < ctr → hlookup out.1 b = hlookup s b
  region : ∀ b node, hlookup out.1 b = some node → hlookup s b = some node ∨
    (ctr ≤ b ∧ b < out.2.2 ∧ ∀ x ∈ node.childRefs, ctr ≤ x ∧ x < out.2.2)

/-- Low-address agreement composes across two allocations. -/
theorem lo_trans {s s1 s2 : Store} {ctr c1 : Nat}
    (h1 : ∀ b, b < ctr → hlookup s1 b = hlookup s b)
    (h2 : ∀ b, b < c1 → hlookup s2 b = hlookup s1 b) (hle : ctr ≤ c1) :
    ∀ b, b < ctr → hlookup s2 b = hlookup s b :=
  fun b hb => (h2 b (hb.trans_le hle)).trans (h1 b hb)

/-- The fresh-region property composes across two allocations. -/
theorem region_trans {s s1 s2 : Store} {ctr c1 c2 : Nat}
    (h1 : ∀ b node, hlookup s1 b = some node → hlookup s b = some node ∨
      (ctr ≤ b ∧ b < c1 ∧ ∀ x ∈ node.childRefs, ctr ≤ x ∧ x < c1))
    (h2 : ∀ b node, hlookup s2 b = some node → hlookup s1 b = some node ∨
      (c1 ≤ b ∧ b < c2 ∧ ∀ x ∈ node.childRefs, c1 ≤ x ∧ x < c2))
    (hle : ctr ≤ c1) (hle2 : c1 ≤ c2) :
    ∀ b node, hlookup s2 b = some node → hlookup s b = some node ∨
      (ctr ≤ b ∧ b < c2 ∧ ∀ x ∈ node.childRefs, ctr ≤ x ∧ x < c2) := by
  intro b node h
  rcases h2 b node h with hold | ⟨hb1, hb2, hx⟩
  · rcases h1 b node hold with hold2 | ⟨hc1, hc2, hx⟩
    · exact Or.inl hold2
    · exact Or.inr ⟨hc1, hc2.trans_le hle2,
        fun x hx2 => ⟨(hx x hx2).1, (hx x hx2).2.trans_le hle2⟩⟩
  · exact Or.inr ⟨hle.trans hb1, hb2,
      fun x hx2 => ⟨hle.trans (hx x hx2).1, (hx x hx2).2⟩⟩

/-- Assemble the list-allocation invariant from a head allocation and the
allocation of the remaining list. -/
theorem allocOutL_cons {s : Store} {ctr : Nat} {q : Store × Nat × Nat}
    {qL : Store × List Nat × Nat}
    (A1 : AllocOut s ctr q) (A2 : AllocOutL q.1 q.2.2 qL) :
    AllocOutL s ctr (qL.1, q.2.1 :: qL.2.1, qL.2.2) := by
  refine ⟨A1.le_ctr.trans A2.le_ctr, ?_, lo_trans A1.lo A2.lo A1.le_ctr,
    region_trans A1.region A2.region A1.le_ctr A2.le_ctr⟩
  intro x hx
  rcases List.mem_cons.mp hx with rfl | hx2
  · exact ⟨A1.ref_ge, A1.ref_lt.trans_le A2.le_ctr⟩
  · obtain ⟨h1, h2⟩ := A2.refs x hx2
    exact ⟨A1.le_ctr.trans h1, h2⟩

/-- Assemble the invariant for an allocation that finishes by binding a
parent object at the final counter on top of the children's store. -/
theorem allocOut_cons_head {s s2 : Store} {ctr c2 : Nat} (node : HNode)
    (hreg : ∀ b nd, hlookup s2 b = some nd → hlookup s b = some nd ∨
      (ctr ≤ b ∧ b < c2 ∧ ∀ x ∈ nd.childRefs, ctr ≤ x ∧ x < c2))
    (hlo : ∀ b, b < ctr → hlookup s2 b = hlookup s b)
    (hle : ctr ≤ c2)
    (hchild : ∀ x ∈ node.childRefs, ctr ≤ x ∧ x < c2) :
    AllocOut s ctr (((c2, node) :: s2, c2, c2 + 1) : Store × Nat × Nat) := by
  refine ⟨hle.trans (Nat.le_succ c2), hle, Nat.lt_succ_self _, ?_, ?_⟩
  · intro b hb
    have hne : c2 ≠ b := by omega
    simp only [hlookup, if_neg hne]
    exact hlo b hb
  · intro b nd h
    by_cases hb : c2 = b
    · subst hb
      have hhead : hlookup ((c2, node) :: s2) c2 = some node := by simp [hlookup]
      rw [hhead] at h
      injection h with h2
      subst h2
      exact Or.inr ⟨hle, Nat.lt_succ_self _,
        fun x hx => ⟨(hchild x hx).1, (hchild x hx).2.trans (Nat.lt_succ_self _)⟩⟩
    · simp only [hlookup, if_neg hb] at h
      rcases hreg b nd h with hold | ⟨h1, h2, h3⟩
      · exact Or.inl hold
      · exact Or.inr ⟨h1, h2.trans (Nat.lt_succ_self _),
          fun x hx => ⟨(h3 x hx).1, (h3 x hx).2.trans (Nat.lt_succ_self _)⟩⟩

/-- Allocating an address list satisfies the allocation invariant and
reads back to the allocated list. -/
theorem allocAddresses_spec (l : List Address) (ctr : Nat) (s : Store) :
    AllocOutL s ctr (allocAddresses l ctr s) ∧
    interpAddresses (allocAddresses l ctr s).1 (allocAddresses l ctr s).2.1 = some l := by
  induction l generalizing ctr s with
  | nil =>
      exact ⟨⟨le_refl _, by intro x hx; simp [allocAddresses] at hx,
        fun b hb => rfl, fun b node h => Or.inl h⟩, rfl⟩
  | cons a tl ih =>
      simp only [allocAddresses, allocAddress]
      obtain ⟨A2, I2⟩ := ih (ctr + 1) ((ctr, .haddress a.address) :: s)
      have A1 : AllocOut s ctr
          (((ctr, HNode.haddress a.address) :: s, ctr, ctr + 1) : Store × Nat × Nat) :=
        allocOut_cons_head (.haddress a.address) (fun b nd h => Or.inl h)
          (fun b hb => rfl) (le_refl ctr) (by simp [HNode.childRefs])
      refine ⟨allocOutL_cons A1 A2, ?_⟩
      rw [interpAddresses, List.mapM_cons]
      have h1 : interpAddress
          (allocAddresses tl (ctr + 1) ((ctr, .haddress a.address) :: s)).1 ctr =
          some a := by
        rw [interpAddress, A2.lo ctr (Nat.lt_succ_self ctr)]
        simp [hlookup]
      rw [interpAddresses] at I2
      rw [h1, I2]
      rfl

/-- Allocation invariant for a leaf object (no child references). -/
theorem allocLeafOut (node : HNode) (hleaf : node.childRefs = []) (ctr : Nat)
    (s : Store) :
    AllocOut s ctr (((ctr, node) :: s, ctr, ctr + 1) : Store × Nat × Nat) :=
  allocOut_cons_head node (fun b nd h => Or.inl h) (fun b hb => rfl) (le_refl ctr)
    (by simp [hleaf])

mutual

/-- Allocating a component satisfies the allocation invariant and reads
back, with enough fuel, to the allocated component. -/
theorem allocComponent_spec (c : Component) (ctr : Nat) (s : Store)
    (hok : okStore s ctr) :
    AllocOut s ctr (allocComponent c ctr s) ∧
    ∀ fuel, Component.depth c ≤ fuel →
      interpComponent fuel (allocComponent c ctr s).1 (allocComponent c ctr s).2.1 =
        some c := by
  cases c with
  | cpu cores mhz =>
      refine ⟨allocLeafOut (.hcpu cores mhz) rfl ctr s, ?_⟩
      intro fuel hf
      cases fuel with
      | zero => exact absurd hf (by simp [Component.depth])
      | succ f => simp [allocComponent, interpComponent, hlookup]
  | memory sz =>
      refine ⟨allocLeafOut (.hmemory sz) rfl ctr s, ?_⟩
      intro fuel hf
      cases fuel with
      | zero => exact absurd hf (by simp [Component.depth])
      | succ f => simp [allocComponent, interpComponent, hlookup]
  | disk d =>
      refine ⟨allocLeafOut (.hdisk d.storage_type d.size d.partitions) rfl ctr s, ?_⟩
      intro fuel hf
      cases fuel with
      | zero => exact absurd hf (by simp [Component.depth])
      | succ f => simp [allocComponent, interpComponent, hlookup]
  | computer c2 => exact allocComputer_spec c2 ctr s hok

/-- Allocating a computer satisfies the allocation invariant and reads
back, with enough fuel, to the allocated computer. -/
theorem allocComputer_spec (c : Computer) (ctr : Nat) (s : Store)
    (hok : okStore s ctr) :
    AllocOut s ctr (allocComputer c ctr s) ∧
    ∀ fuel, Computer.depth c ≤ fuel →
      interpComponent fuel (allocComputer c ctr s).1 (allocComputer c ctr s).2.1 =
        some (.computer c) := by
  cases c with
  | mk nm addrs items =>
    obtain ⟨LA, IA⟩ := allocAddresses_spec addrs ctr s
    have hokA : okStore (allocAddresses addrs ctr s).1 (allocAddresses addrs ctr s).2.2 :=
      okStore_step _ _ _ _ hok LA.le_ctr LA.region
    obtain ⟨LB, IB⟩ := allocComponents_spec items (allocAddresses addrs ctr s).2.2
      (allocAddresses addrs ctr s).1 hokA
    have hokB : okStore (allocComponents items (allocAddresses addrs ctr s).2.2
          (allocAddresses addrs ctr s).1).1
        (allocComponents items (allocAddresses addrs ctr s).2.2
          (allocAddresses addrs ctr s).1).2.2 :=
      okStore_step _ _ _ _ hokA LB.le_ctr LB.region
    simp only [allocComputer]
    set qA := allocAddresses addrs ctr s with hqA
    set qB := allocComponents items qA.2.2 qA.1 with hqB
    have hchild : ∀ x ∈ (HNode.hcomputer nm qA.2.1 qB.2.1).childRefs,
        ctr ≤ x ∧ x < qB.2.2 := by
      intro x hx
      simp only [HNode.childRefs, List.mem_append] at hx
      rcases hx with hx | hx
      · obtain ⟨h1, h2⟩ := LA.refs x hx
        exact ⟨h1, h2.trans_le LB.le_ctr⟩
      · obtain ⟨h1, h2⟩ := LB.refs x hx
        exact ⟨LA.le_ctr.trans h1, h2⟩
    refine ⟨allocOut_cons_head _
      (region_trans LA.region LB.region LA.le_ctr LB.le_ctr)
      (lo_trans LA.lo LB.lo LA.le_ctr) (LA.le_ctr.trans LB.le_ctr) hchild, ?_⟩
    intro fuel hf
    cases fuel with
    | zero => exact absurd hf (by simp [Computer.depth])
    | succ f =>
      have hf2 : depthComponents items ≤ f := by
        have : depthComponents items + 1 ≤ f + 1 := by
          simpa [Computer.depth] using hf
        omega
      have hhead : hlookup ((qB.2.2, HNode.hcomputer nm qA.2.1 qB.2.1) :: qB.1)
          qB.2.2 = some (HNode.hcomputer nm qA.2.1 qB.2.1) := by
        simp [hlookup]
      have h1 : ∀ x ∈ qA.2.1,
          hlookup ((qB.2.2, HNode.hcomputer nm qA.2.1 qB.2.1) :: qB.1) x =
            hlookup qA.1 x := by
        intro x hx
        obtain ⟨hx1, hx2⟩ := LA.refs x hx
        have hne : qB.2.2 ≠ x := by
          have := LB.le_ctr
          omega
        simp only [hlookup, if_neg hne]
        exact LB.lo x hx2
      have hars : interpAddresses
          ((qB.2.2, HNode.hcomputer nm qA.2.1 qB.2.1) :: qB.1) qA.2.1 = some addrs :=
        (interpAddresses_frame qA.1 _ qA.2.1 h1).trans IA
      have hfr : ∀ x ∈ qB.2.1,
          interpComponent f ((qB.2.2, HNode.hcomputer nm qA.2.1 qB.2.1) :: qB.1) x =
            interpComponent f qB.1 x := by
        intro x hx
        refine interpComponent_frame (fun y => y < qB.2.2) qB.1 _ ?_ ?_ f x
          (LB.refs x hx).2
        · intro b hb
          have hne : qB.2.2 ≠ b := by omega
          simp only [hlookup, if_neg hne]
        · intro b nd hb hl x2 hx2
          exact (hokB b nd hl).2 x2 hx2
      have hcomps : qB.2.1.mapM
          (interpComponent f ((qB.2.2, HNode.hcomputer nm qA.2.1 qB.2.1) :: qB.1)) =
          some items :=
        (mapM_congr_option qB.2.1 hfr).trans (IB f hf2)
      simp only [interpComponent, hhead, hars, hcomps]

/-- Allocating a component list satisfies the allocation invariant and
reads back, with enough fuel, to the allocated list. -/
theorem allocComponents_spec (l : List Component) (ctr : Nat) (s : Store)
    (hok : okStore s ctr) :
    AllocOutL s ctr (allocComponents l ctr s) ∧
    ∀ fuel, depthComponents l ≤ fuel →
      (allocComponents l ctr s).2.1.mapM
        (interpComponent fuel (allocComponents l ctr s).1) = some l := by
  cases l with
  | nil =>
      exact ⟨⟨le_refl _, by intro x hx; simp [allocComponents] at hx,
        fun b hb => rfl, fun b node h => Or.inl h⟩, fun fuel _ => rfl⟩
  | cons c tl =>
      obtain ⟨A1, I1⟩ := allocComponent_spec c ctr s hok
      have hok1 : okStore (allocComponent c ctr s).1 (allocComponent c ctr s).2.2 :=
        okStore_step _ _ _ _ hok A1.le_ctr A1.region
      obtain ⟨A2, I2⟩ := allocComponents_spec tl (allocComponent c ctr s).2.2
        (allocComponent c ctr s).1 hok1
      simp only [allocComponents]
      set q1 := allocComponent c ctr s with hq1
      set q2 := allocComponents tl q1.2.2 q1.1 with hq2
      refine ⟨allocOutL_cons A1 A2, ?_⟩
      intro fuel hf
      have hfd : Component.depth c ≤ fuel ∧ depthComponents tl ≤ fuel :=
        max_le_iff.mp (by simpa [depthComponents] using hf)
      rw [List.mapM_cons]
      have hhead : interpComponent fuel q2.1 q1.2.1 = some c := by
        have hfr : interpComponent fuel q2.1 q1.2.1 = interpComponent fuel q1.1 q1.2.1 :=
          interpComponent_frame (fun y => y < q1.2.2) q1.1 q2.1
            (fun b hb => A2.lo b hb) (fun b nd hb hl x hx => (hok1 b nd hl).2 x hx)
            fuel q1.2.1 A1.ref_lt
        rw [hfr]
        exact I1 fuel hfd.1
      rw [hhead, I2 fuel hfd.2]
      rfl

end

/-- Node read-back only depends on a closed store region. -/
theorem interpNode_frame (P : Nat → Prop) (s s' : Store)
    (hag : ∀ b, P b → hlookup s' b = hlookup s b)
    (hcl : ∀ b node, P b → hlookup s b = some node → ∀ x ∈ node.childRefs, P x)
    (fuel r : Nat) (hr : P r) : interpNode fuel s' r = interpNode fuel s r := by
  rw [interpNode, interpNode, hag r hr]
  cases hlk : hlookup s r with
  | none => rfl
  | some node =>
    cases node with
    | haddress a => simp only [interpAddress_frame s s' r (hag r hr)]
    | hnetwork nm rs => simp only [interpNetwork_frame P s s' hag hcl fuel r hr]
    | hcpu cores mhz => simp only [interpComponent_frame P s s' hag hcl fuel r hr]
    | hmemory sz => simp only [interpComponent_frame P s s' hag hcl fuel r hr]
    | hdisk t sz ps => simp only [interpComponent_frame P s s' hag hcl fuel r hr]
    | hcomputer nm ars irs => simp only [interpComponent_frame P s s' hag hcl fuel r hr]

/-- Allocating a computer list satisfies the allocation invariant and
reads back, with enough fuel, to the allocated list. -/
theorem allocComputers_spec (l : List Computer) (ctr : Nat) (s : Store)
    (hok : okStore s ctr) :
    AllocOutL s ctr (allocComputers l ctr s) ∧
    ∀ fuel, depthComputers l ≤ fuel →
      (allocComputers l ctr s).2.1.mapM
        (interpComputer fuel (allocComputers l ctr s).1) = some l := by
  induction l generalizing ctr s with
  | nil =>
      exact ⟨⟨le_refl _, by intro x hx; simp [allocComputers] at hx,
        fun b hb => rfl, fun b node h => Or.inl h⟩, fun fuel _ => rfl⟩
  | cons c tl ih =>
      obtain ⟨A1, I1⟩ := allocComputer_spec c ctr s hok
      have hok1 : okStore (allocComputer c ctr s).1 (allocComputer c ctr s).2.2 :=
        okStore_step _ _ _ _ hok A1.le_ctr A1.region
      obtain ⟨A2, I2⟩ := ih (allocComputer c ctr s).2.2 (allocComputer c ctr s).1 hok1
      simp only [allocComputers]
      set q1 := allocComputer c ctr s with hq1
      set q2 := allocComputers tl q1.2.2 q1.1 with hq2
      refine ⟨allocOutL_cons A1 A2, ?_⟩
      intro fuel hf
      have hfd : Computer.depth c ≤ fuel ∧ depthComputers tl ≤ fuel :=
        max_le_iff.mp (by simpa [depthComputers] using hf)
      rw [List.mapM_cons]
      have hhead : interpComputer fuel q2.1 q1.2.1 = some c := by
        have hfr : interpComputer fuel q2.1 q1.2.1 = interpComputer fuel q1.1 q1.2.1 :=
          interpComputer_frame (fun y => y < q1.2.2) q1.1 q2.1
            (fun b hb => A2.lo b hb) (fun b nd hb hl x hx => (hok1 b nd hl).2 x hx)
            fuel q1.2.1 A1.ref_lt
        rw [hfr, interpComputer, I1 fuel hfd.1]
      rw [hhead, I2 fuel hfd.2]
      rfl

/-- Allocating a network satisfies the allocation invariant and reads
back, with enough fuel, to the allocated network. -/
theorem allocNetwork_spec (n : Network) (ctr : Nat) (s : Store)
    (hok : okStore s ctr) :
    AllocOut s ctr (allocNetwork n ctr s) ∧
    ∀ fuel, Network.depth n ≤ fuel →
      interpNetwork fuel (allocNetwork n ctr s).1 (allocNetwork n ctr s).2.1 =
        some n := by
  obtain ⟨LC, IC⟩ := allocComputers_spec n.computers ctr s hok
  have hokC : okStore (allocComputers n.computers ctr s).1
      (allocComputers n.computers ctr s).2.2 :=
    okStore_step _ _ _ _ hok LC.le_ctr LC.region
  simp only [allocNetwork]
  set qC := allocComputers n.computers ctr s with hqC
  have hchild : ∀ x ∈ (HNode.hnetwork n.name qC.2.1).childRefs,
      ctr ≤ x ∧ x < qC.2.2 := by
    intro x hx
    simp only [HNode.childRefs] at hx
    exact LC.refs x hx
  refine ⟨allocOut_cons_head _ LC.region LC.lo LC.le_ctr hchild, ?_⟩
  intro fuel hf
  cases fuel with
  | zero => exact absurd hf (by simp [Network.depth])
  | succ f =>
    have hf2 : depthComputers n.computers ≤ f := by
      have h3 : depthComputers n.computers + 1 ≤ f + 1 := by
        simpa [Network.depth] using hf
      omega
    have hhead : hlookup ((qC.2.2, HNode.hnetwork n.name qC.2.1) :: qC.1) qC.2.2 =
        some (HNode.hnetwork n.name qC.2.1) := by simp [hlookup]
    have hfr : ∀ x ∈ qC.2.1,
        interpComputer f ((qC.2.2, HNode.hnetwork n.name qC.2.1) :: qC.1) x =
          interpComputer f qC.1 x := by
      intro x hx
      refine interpComputer_frame (fun y => y < qC.2.2) qC.1 _ ?_ ?_ f x (LC.refs x hx).2
      · intro b hb
        have hne : qC.2.2 ≠ b := by omega
        simp only [hlookup, if_neg hne]
      · intro b nd hb hl x2 hx2
        exact (hokC b nd hl).2 x2 hx2
    have hcs : interpComputers f ((qC.2.2, HNode.hnetwork n.name qC.2.1) :: qC.1)
        qC.2.1 = some n.computers := by
      rw [interpComputers]
      exact (mapM_congr_option qC.2.1 hfr).trans (IC f hf2)
    simp only [interpNetwork, hhead, hcs, Option.map_some']

/-- Allocating a node of any kind satisfies the allocation invariant and
reads back, with enough fuel, to the allocated node. -/
theorem allocNode_spec (t : Node) (ctr : Nat) (s : Store) (hok : okStore s ctr) :
    AllocOut s ctr (allocNode t ctr s) ∧
    ∀ fuel, Node.depth t ≤ fuel →
      interpNode fuel (allocNode t ctr s).1 (allocNode t ctr s).2.1 = some t := by
  cases t with
  | addr a =>
      refine ⟨allocLeafOut (.haddress a.address) rfl ctr s, ?_⟩
      intro fuel hf
      simp [allocNode, allocAddress, interpNode, interpAddress, hlookup]
  | net m =>
      obtain ⟨A, I⟩ := allocNetwork_spec m ctr s hok
      refine ⟨A, ?_⟩
      intro fuel hf
      have hhead : hlookup (allocNetwork m ctr s).1 (allocNetwork m ctr s).2.1 =
          some (.hnetwork m.name (allocComputers m.computers ctr s).2.1) := by
        simp [allocNetwork, hlookup]
      simp only [allocNode, interpNode, hhead, I fuel hf, Option.map_some']
  | comp c =>
      obtain ⟨A, I⟩ := allocComponent_spec c ctr s hok
      refine ⟨A, ?_⟩
      intro fuel hf
      cases c with
      | cpu cores mhz =>
          have hhead : hlookup (allocComponent (.cpu cores mhz) ctr s).1
              (allocComponent (.cpu cores mhz) ctr s).2.1 = some (.hcpu cores mhz) := by
            simp [allocComponent, hlookup]
          simp only [allocNode, interpNode, hhead, I fuel hf, Option.map_some']
      | memory sz =>
          have hhead : hlookup (allocComponent (.memory sz) ctr s).1
              (allocComponent (.memory sz) ctr s).2.1 = some (.hmemory sz) := by
            simp [allocComponent, hlookup]
          simp only [allocNode, interpNode, hhead, I fuel hf, Option.map_some']
      | disk d =>
          have hhead : hlookup (allocComponent (.disk d) ctr s).1
              (allocComponent (.disk d) ctr s).2.1 =
              some (.hdisk d.storage_type d.size d.partitions) := by
            simp [allocComponent, hlookup]
          simp only [allocNode, interpNode, hhead, I fuel hf, Option.map_some']
      | computer c2 =>
          cases c2 with
          | mk nm addrs items =>
            have hhead : hlookup (allocComputer (.mk nm addrs items) ctr s).1
                (allocComputer (.mk nm addrs items) ctr s).2.1 =
                some (.hcomputer nm (allocAddresses addrs ctr s).2.1
                  (allocComponents items (allocAddresses addrs ctr s).2.2
                    (allocAddresses addrs ctr s).1).2.1) := by
              simp [allocComputer, hlookup]
            simp only [allocNode, allocComponent, interpNode, hhead, Option.map_some']
            have hI := I fuel hf
            simp only [allocComponent] at hI
            rw [hI]
            rfl

/-- C2: for every node of the tree — Network, Computer, CPU, Memory, Disk
(with its partitions) or Address (`Node` covers all six kinds) —
allocated on the heap, `deepcopy` (the model of `clone`'s
`copy.deepcopy`) produces a clone that is structurally equal to the
original at the moment of cloning (both read back to the same value), and
any batch of subsequent in-place updates at addresses of the clone's
fresh region `[c0, ...)` (which contains the clone and every one of its
descendants, so e.g. appending a component to a cloned computer) leaves
the original's read-back unchanged, while any batch of updates at
addresses of the original's region `[0, c0)` (the original and every one
of its descendants) leaves the clone's read-back unchanged: no mutable
storage is shared between original and clone at any depth. -/
theorem clone_deep_independence (t : Node) (us : List (Nat × HNode))
    (s0 s1 : Store) (r c0 r1 c1 : Nat)
    (h0 : allocNode t 0 [] = (s0, r, c0))
    (h1 : deepcopyNode (Node.depth t) s0 r c0 = some (s1, r1, c1)) :
    interpNode (Node.depth t) s1 r1 = some t ∧
    interpNode (Node.depth t) s1 r = some t ∧
    ((∀ q ∈ us, c0 ≤ q.1) → interpNode (Node.depth t) (us ++ s1) r = some t) ∧
    ((∀ q ∈ us, q.1 < c0) → interpNode (Node.depth t) (us ++ s1) r1 = some t) := by
  have hok0 : okStore ([] : Store) 0 := by
    intro b node h
    simp [hlookup] at h
  have hs : s0 = (allocNode t 0 []).1 := by rw [h0]
  have hrr : r = (allocNode t 0 []).2.1 := by rw [h0]
  have hcc : c0 = (allocNode t 0 []).2.2 := by rw [h0]
  subst hs hrr hcc
  obtain ⟨A0, I0⟩ := allocNode_spec t 0 [] hok0
  have hI0 : interpNode (Node.depth t) (allocNode t 0 []).1 (allocNode t 0 []).2.1 =
      some t := I0 _ (le_refl _)
  have hok1 : okStore (allocNode t 0 []).1 (allocNode t 0 []).2.2 :=
    okStore_step _ _ _ _ hok0 A0.le_ctr A0.region
  rw [deepcopyNode, hI0, Option.map_some'] at h1
  injection h1 with h1
  have hs1 : s1 = (allocNode t (allocNode t 0 []).2.2 (allocNode t 0 []).1).1 := by
    rw [h1]
  have hr1 : r1 = (allocNode t (allocNode t 0 []).2.2 (allocNode t 0 []).1).2.1 := by
    rw [h1]
  subst hs1 hr1
  obtain ⟨A1, I1⟩ := allocNode_spec t (allocNode t 0 []).2.2 (allocNode t 0 []).1 hok1
  have hI1 : interpNode (Node.depth t)
      (allocNode t (allocNode t 0 []).2.2 (allocNode t 0 []).1).1
      (allocNode t (allocNode t 0 []).2.2 (allocNode t 0 []).1).2.1 = some t :=
    I1 _ (le_refl _)
  have hcl1 : ∀ b nd, b < (allocNode t 0 []).2.2 →
      hlookup (allocNode t (allocNode t 0 []).2.2 (allocNode t 0 []).1).1 b = some nd →
      ∀ x ∈ nd.childRefs, x < (allocNode t 0 []).2.2 := by
    intro b nd hb hl x hx
    rw [A1.lo b hb] at hl
    exact (hok1 b nd hl).2 x hx
  have hfr2 : interpNode (Node.depth t)
      (allocNode t (allocNode t 0 []).2.2 (allocNode t 0 []).1).1
      (allocNode t 0 []).2.1 = some t := by
    rw [interpNode_frame (fun y => y < (allocNode t 0 []).2.2) (allocNode t 0 []).1
      (allocNode t (allocNode t 0 []).2.2 (allocNode t 0 []).1).1
      (fun b hb => A1.lo b hb)
      (fun b nd hb hl x hx => (hok1 b nd hl).2 x hx)
      (Node.depth t) (allocNode t 0 []).2.1 A0.ref_lt]
    exact hI0
  refine ⟨hI1, hfr2, ?_, ?_⟩
  · intro hus
    rw [interpNode_frame (fun y => y < (allocNode t 0 []).2.2)
      (allocNode t (allocNode t 0 []).2.2 (allocNode t 0 []).1).1
      (us ++ (allocNode t (allocNode t 0 []).2.2 (allocNode t 0 []).1).1)
      (fun b hb => hlookup_prepend_ne us _ b
        (fun q hq => by have := hus q hq; omega))
      (fun b nd hb hl => hcl1 b nd hb hl)
      (Node.depth t) (allocNode t 0 []).2.1 A0.ref_lt]
    exact hfr2
  · intro hus
    rw [interpNode_frame (fun y => (allocNode t 0 []).2.2 ≤ y)
      (allocNode t (allocNode t 0 []).2.2 (allocNode t 0 []).1).1
      (us ++ (allocNode t (allocNode t 0 []).2.2 (allocNode t 0 []).1).1)
      (fun b hb => hlookup_prepend_ne us _ b
        (fun q hq => by have := hus q hq; omega))
      ?hcl (Node.depth t)
      (allocNode t (allocNode t 0 []).2.2 (allocNode t 0 []).1).2.1 A1.ref_ge]
    · exact hI1
    · intro b nd hb hl x hx
      rcases A1.region b nd hl with hold | ⟨hh1, hh2, hh3⟩
      · exact absurd (hok1 b nd hold).1 (by omega)
      · exact (hh3 x hx).1

/-- Witness for the deep-copy independence theorem at a concrete computer
node with one address and one CPU: the two allocation hypotheses are
discharged by computation, and the update list lives in the clone's
region. -/
theorem clone_deep_independence_witness :
    interpNode (Node.depth (Node.comp (.computer (.mk "pc" [⟨"ip"⟩] [.cpu 1 2]))))
      [(5, .hcomputer "pc" [3] [4]), (4, .hcpu 1 2), (3, .haddress "ip"),
        (2, .hcomputer "pc" [0] [1]), (1, .hcpu 1 2), (0, .haddress "ip")] 5 =
      some (Node.comp (.computer (.mk "pc" [⟨"ip"⟩] [.cpu 1 2]))) ∧
    interpNode (Node.depth (Node.comp (.computer (.mk "pc" [⟨"ip"⟩] [.cpu 1 2]))))
      [(5, .hcomputer "pc" [3] [4]), (4, .hcpu 1 2), (3, .haddress "ip"),
        (2, .hcomputer "pc" [0] [1]), (1, .hcpu 1 2), (0, .haddress "ip")] 2 =
      some (Node.comp (.computer (.mk "pc" [⟨"ip"⟩] [.cpu 1 2]))) ∧
    ((∀ q ∈ [((4 : Nat), HNode.hmemory 7)], 3 ≤ q.1) →
      interpNode (Node.depth (Node.comp (.computer (.mk "pc" [⟨"ip"⟩] [.cpu 1 2]))))
        ([((4 : Nat), HNode.hmemory 7)] ++
          [(5, .hcomputer "pc" [3] [4]), (4, .hcpu 1 2), (3, .haddress "ip"),
            (2, .hcomputer "pc" [0] [1]), (1, .hcpu 1 2), (0, .haddress "ip")]) 2 =
        some (Node.comp (.computer (.mk "pc" [⟨"ip"⟩] [.cpu 1 2])))) ∧
    ((∀ q ∈ [((4 : Nat), HNode.hmemory 7)], q.1 < 3) →
      interpNode (Node.depth (Node.comp (.computer (.mk "pc" [⟨"ip"⟩] [.cpu 1 2]))))
        ([((4 : Nat), HNode.hmemory 7)] ++
          [(5, .hcomputer "pc" [3] [4]), (4, .hcpu 1 2), (3, .haddress "ip"),
            (2, .hcomputer "pc" [0] [1]), (1, .hcpu 1 2), (0, .haddress "ip")]) 5 =
        some (Node.comp (.computer (.mk "pc" [⟨"ip"⟩] [.cpu 1 2])))) :=
  clone_deep_independence
    (Node.comp (.computer (.mk "pc" [⟨"ip"⟩] [.cpu 1 2])))
    [((4 : Nat), HNode.hmemory 7)]
    [(2, .hcomputer "pc" [0] [1]), (1, .hcpu 1 2), (0, .haddress "ip")]
    [(5, .hcomputer "pc" [3] [4]), (4, .hcpu 1 2), (3, .haddress "ip"),
      (2, .hcomputer "pc" [0] [1]), (1, .hcpu 1 2), (0, .haddress "ip")]
    2 3 5 6 (by rfl) (by rfl)

/-- C10: clone commutes with rendering: for every network, `clone`
(modelled through the heap as `copy.deepcopy`) reads back to a network
structurally equal to the original, so the string conversion of the clone
equals the string conversion of the original. -/
theorem clone_commutes_with_render (n : Network) :
    Network.clone n = some n ∧
    (Network.clone n).map Network.str = some (Network.str n) := by
  have hok0 : okStore ([] : Store) 0 := by
    intro b node h
    simp [hlookup] at h
  obtain ⟨A0, I0⟩ := allocNetwork_spec n 0 [] hok0
  have hok1 : okStore (allocNetwork n 0 []).1 (allocNetwork n 0 []).2.2 :=
    okStore_step _ _ _ _ hok0 A0.le_ctr A0.region
  obtain ⟨A1, I1⟩ := allocNetwork_spec n (allocNetwork n 0 []).2.2
    (allocNetwork n 0 []).1 hok1
  have hmain : Network.clone n = some n := by
    rw [Network.clone]
    simp only [deepcopyNetwork, I0 _ (le_refl _), Option.map_some', Option.some_bind]
    exact I1 _ (le_refl _)
  refine ⟨hmain, ?_⟩
  rw [hmain]
  rfl
